import Mathlib

set_option maxHeartbeats 1000000

/-!
Verification development for the decode pipeline of
`Conver_Text2Image2Text` (`src/index.py`).

The source is embedded shallowly:

* bit streams and table keys are lists of characters (the Python code works
  on strings of arbitrary characters);
* Python dictionaries become association lists consulted by `dictLookup`;
* every `raise ValueError(...)` becomes an `Except.error` carrying a typed
  `DecodeError` whose fields record the data interpolated into the Python
  message;
* Python's `%` on integers is floored modulo (`Int.fmod`) for a nonzero
  modulus and raises `ZeroDivisionError` for a zero modulus;
* the `print`-ed "bit stream not fully consumed" warning becomes an optional
  diagnostic value returned next to the pixel list.
-/

/-- Python-style dictionary lookup on an association list (`key in d` /
`d[key]`). -/
def dictLookup {α β : Type} [DecidableEq α] : List (α × β) → α → Option β
  | [], _ => none
  | (k, v) :: rest, key => if k = key then some v else dictLookup rest key

/-- Typed rendering of every exception the decoder can raise.  Each
constructor's fields are the data interpolated into the corresponding Python
error message.  `zeroDivisionError` models the runtime `ZeroDivisionError`
of `x % 0`, which is not part of the spec's `ValueError` taxonomy. -/
inductive DecodeError : Type where
  | invalidCharacter (index : Nat) (char : Char)
  | huffmanDecodeError (itemName : String) (position : Nat)
      (triedBits ctxBefore ctxAfter : List Char)
  | invalidRunCount (count : Int)
  | prematureEndOfStream (expected accumulated : Int)
      (bitsProcessed streamLength : Nat)
  | overrunPixelCount (expected accumulated : Int)
  | exhaustedStreamUnderrun (accumulated expected : Int)
  | internalRleMismatch (decodedCount : Nat) (expected : Int)
  | invalidRepresentativeColorId (repId : Int) (tableLen : Nat)
  | zeroDivisionError
  deriving DecidableEq, Repr

/-- Item tag passed to the scanner when decoding a representative color id. -/
def rep_color_item : String := "representative color ID"

/-- Item tag passed to the scanner when decoding a difference value. -/
def diff_value_item : String := "difference value"

/-- Item tag passed to the scanner when decoding an RLE count. -/
def rle_count_item : String := "RLE count"

/-- The candidate-prefix scan of `decode_huffman_stream_item`: `pfx` is the
candidate built so far, `i` the index of the next bit, `rest` the bits from
`i` on (`for i in range(current_pos, len(bit_stream))`). -/
def scanGo (table : List (List Char × Int)) (pfx : List Char) (i : Nat) :
    List Char → Option (Int × Nat)
  | [] => none
  | b :: bs =>
    match dictLookup table (pfx ++ [b]) with
    | some v => some (v, i + 1)
    | none => scanGo table (pfx ++ [b]) (i + 1) bs

/-- `decode_huffman_stream_item` from `src/index.py`: greedy shortest-match
scan from `current_pos`; on failure the error carries the whole tried
remainder and the `[-20, +40)` bit context window around the position. -/
def decode_huffman_stream_item (bit_stream : List Char) (current_pos : Nat)
    (reverse_huffman_table : List (List Char × Int)) (item_name : String) :
    Except DecodeError (Int × Nat) :=
  match scanGo reverse_huffman_table [] current_pos
      (bit_stream.drop current_pos) with
  | some (v, newPos) => .ok (v, newPos)
  | none =>
    .error (.huffmanDecodeError item_name current_pos
      (bit_stream.drop current_pos)
      ((bit_stream.take current_pos).drop (current_pos - 20))
      ((bit_stream.drop current_pos).take 40))

/-- The `while total_pixels_in_rle_data < expected_total_pixels` loop of
`decode_image_data` (step 2).  Returns the RLE record list, the accumulated
pixel total and the final cursor.  Terminates because every appended count
is positive. -/
def accumLoop (bit_stream : List Char)
    (repT diffT cntT : List (List Char × Int)) (expected : Int)
    (current_pos : Nat) (total : Int) (acc : List ((Int × Int) × Int)) :
    Except DecodeError (List ((Int × Int) × Int) × Int × Nat) :=
  if h : total < expected then
    if bit_stream.length ≤ current_pos then
      if total < expected then
        .error (.prematureEndOfStream expected total current_pos
          bit_stream.length)
      else
        .ok (acc, total, current_pos)
    else
      match decode_huffman_stream_item bit_stream current_pos repT
          rep_color_item with
      | .error e => .error e
      | .ok (rep_color_id, pos1) =>
        match decode_huffman_stream_item bit_stream pos1 diffT
            diff_value_item with
        | .error e => .error e
        | .ok (diff_value, pos2) =>
          match decode_huffman_stream_item bit_stream pos2 cntT
              rle_count_item with
          | .error e => .error e
          | .ok (count, pos3) =>
            if hc : count ≤ 0 then
              .error (.invalidRunCount count)
            else
              accumLoop bit_stream repT diffT cntT expected pos3
                (total + count) (acc ++ [((rep_color_id, diff_value), count)])
  else
    .ok (acc, total, current_pos)
termination_by (expected - total).toNat
decreasing_by omega

/-- Fuel-indexed copy of `accumLoop`, used to show that the loop needs at
most `bit_stream.length + 1` iterations (the cursor strictly advances) and
to evaluate `accumLoop` on concrete inputs. -/
def accumLoopF (bit_stream : List Char)
    (repT diffT cntT : List (List Char × Int)) (expected : Int) :
    Nat → Nat → Int → List ((Int × Int) × Int) →
    Option (Except DecodeError (List ((Int × Int) × Int) × Int × Nat))
  | 0, _, _, _ => none
  | fuel + 1, current_pos, total, acc =>
    if total < expected then
      if bit_stream.length ≤ current_pos then
        some (if total < expected then
          .error (.prematureEndOfStream expected total current_pos
            bit_stream.length)
        else
          .ok (acc, total, current_pos))
      else
        match decode_huffman_stream_item bit_stream current_pos repT
            rep_color_item with
        | .error e => some (.error e)
        | .ok (rep_color_id, pos1) =>
          match decode_huffman_stream_item bit_stream pos1 diffT
              diff_value_item with
          | .error e => some (.error e)
          | .ok (diff_value, pos2) =>
            match decode_huffman_stream_item bit_stream pos2 cntT
                rle_count_item with
            | .error e => some (.error e)
            | .ok (count, pos3) =>
              if count ≤ 0 then
                some (.error (.invalidRunCount count))
              else
                accumLoopF bit_stream repT diffT cntT expected fuel pos3
                  (total + count)
                  (acc ++ [((rep_color_id, diff_value), count)])
    else
      some (.ok (acc, total, current_pos))

/-- Step 1 of `decode_image_data`: expand each input character through the
codebook, failing on the first unmapped character with its 0-based index. -/
def expandGo (char_to_bits_map : List (Char × List Char)) (char_idx : Nat) :
    List Char → Except DecodeError (List Char)
  | [] => .ok []
  | c :: rest =>
    match dictLookup char_to_bits_map c with
    | none => .error (.invalidCharacter char_idx c)
    | some bits =>
      match expandGo char_to_bits_map (char_idx + 1) rest with
      | .error e => .error e
      | .ok tail => .ok (bits ++ tail)

/-- Step 3 of `decode_image_data`: flat run-length expansion
(`decoded_value_pairs.extend([value_pair] * count_val)`; a Python list
repeated a non-positive number of times is empty, hence `Int.toNat`). -/
def rleExpand : List ((Int × Int) × Int) → List (Int × Int)
  | [] => []
  | (value_pair, count_val) :: rest =>
    List.replicate count_val.toNat value_pair ++ rleExpand rest

/-- Step 4 of `decode_image_data`: resolve each (repId, diff) pair to a
final palette index.  `x % 0` raises `ZeroDivisionError` in Python; for a
nonzero modulus Python's `%` is floored modulo, `Int.fmod`. -/
def reconstructPixels (representative_palette_indices : List Int)
    (palette_size : Int) :
    List (Int × Int) → Except DecodeError (List Int)
  | [] => .ok []
  | (rep_color_id, diff_value) :: rest =>
    if 0 ≤ rep_color_id ∧
        rep_color_id < (representative_palette_indices.length : Int) then
      if palette_size = 0 then
        .error .zeroDivisionError
      else
        match reconstructPixels representative_palette_indices palette_size
            rest with
        | .error e => .error e
        | .ok tail =>
          .ok (Int.fmod
            (representative_palette_indices.getD rep_color_id.toNat 0 +
              diff_value) palette_size :: tail)
    else
      .error (.invalidRepresentativeColorId rep_color_id
        representative_palette_indices.length)

/-- `decode_image_data` from `src/index.py`.  On success it returns the
final pixel palette index list together with the optional trailing-bits
diagnostic (remaining bit count, first 30 unconsumed bits) that the Python
code prints as a warning. -/
def decode_image_data (encoded_string : List Char)
    (char_to_bits_map : List (Char × List Char))
    (rep_color_huffman_rev_table diff_value_huffman_rev_table
      count_huffman_rev_table : List (List Char × Int))
    (representative_palette_indices : List Int)
    (palette_size : Int) (image_width image_height : Nat) :
    Except DecodeError (List Int × Option (Nat × List Char)) :=
  match expandGo char_to_bits_map 0 encoded_string with
  | .error e => .error e
  | .ok bit_stream =>
    match accumLoop bit_stream rep_color_huffman_rev_table
        diff_value_huffman_rev_table count_huffman_rev_table
        ((image_width : Int) * (image_height : Int)) 0 0 [] with
    | .error e => .error e
    | .ok (rle_encoded_data, total_pixels_in_rle_data, current_pos) =>
      if ((image_width : Int) * (image_height : Int)) <
          total_pixels_in_rle_data then
        .error (.overrunPixelCount
          ((image_width : Int) * (image_height : Int))
          total_pixels_in_rle_data)
      else if total_pixels_in_rle_data <
            ((image_width : Int) * (image_height : Int)) ∧
          current_pos = bit_stream.length then
        .error (.exhaustedStreamUnderrun total_pixels_in_rle_data
          ((image_width : Int) * (image_height : Int)))
      else if ((rleExpand rle_encoded_data).length : Int) ≠
          ((image_width : Int) * (image_height : Int)) then
        .error (.internalRleMismatch (rleExpand rle_encoded_data).length
          ((image_width : Int) * (image_height : Int)))
      else
        match reconstructPixels representative_palette_indices palette_size
            (rleExpand rle_encoded_data) with
        | .error e => .error e
        | .ok final_pixel_palette_indices =>
          .ok (final_pixel_palette_indices,
            if current_pos < bit_stream.length then
              some (bit_stream.length - current_pos,
                (bit_stream.drop current_pos).take 30)
            else
              none)

/-- The example codebook of `src/index.py` (`char_to_bits_map_example`). -/
def char_to_bits_map_example : List (Char × List Char) :=
  [('A', ['0', '0', '0']), ('B', ['0', '0', '1']), ('C', ['0', '1', '0']),
   ('D', ['0', '1', '1']), ('E', ['1', '0', '0']), ('F', ['1', '0', '1']),
   ('G', ['1', '1', '0']), ('H', ['1', '1', '1'])]

/-- The example representative-color table (`{"0": 0, "1": 1}`). -/
def rep_color_table_example : List (List Char × Int) :=
  [(['0'], 0), (['1'], 1)]

/-- The example difference table (`{"00": 0, "01": 1, "10": -1}`). -/
def diff_value_table_example : List (List Char × Int) :=
  [(['0', '0'], 0), (['0', '1'], 1), (['1', '0'], -1)]

/-- The example count table (`{"0": 1, "1": 2}`). -/
def count_table_example : List (List Char × Int) :=
  [(['0'], 1), (['1'], 2)]

/-- Each step of the candidate scan advances the returned cursor past `i`
and at most to the end of the scanned suffix. -/
theorem scanGo_progress (table : List (List Char × Int)) (rest : List Char) :
    ∀ (pfx : List Char) (i : Nat) (v : Int) (np : Nat),
      scanGo table pfx i rest = some (v, np) → i < np ∧ np ≤ i + rest.length := by
  induction rest with
  | nil => intro pfx i v np h; simp [scanGo] at h
  | cons b bs ih =>
    intro pfx i v np h
    unfold scanGo at h
    cases hl : dictLookup table (pfx ++ [b]) with
    | some w =>
      rw [hl] at h
      simp only [Option.some.injEq, Prod.mk.injEq] at h
      simp only [List.length_cons]
      omega
    | none =>
      rw [hl] at h
      have := ih (pfx ++ [b]) (i + 1) v np h
      simp only [List.length_cons]
      omega

/-- A successful scanner call strictly advances the cursor and never moves
it beyond the end of the bit stream. -/
theorem decode_huffman_stream_item_progress (bit_stream : List Char)
    (current_pos : Nat) (table : List (List Char × Int)) (item_name : String)
    (v : Int) (newPos : Nat)
    (h : decode_huffman_stream_item bit_stream current_pos table item_name
      = .ok (v, newPos)) :
    current_pos < newPos ∧ newPos ≤ bit_stream.length := by
  unfold decode_huffman_stream_item at h
  cases hs : scanGo table [] current_pos (bit_stream.drop current_pos) with
  | none => rw [hs] at h; exact absurd h (by simp)
  | some p =>
    obtain ⟨w, np⟩ := p
    rw [hs] at h
    simp only [Except.ok.injEq, Prod.mk.injEq] at h
    obtain ⟨hv, hnp⟩ := h
    have hp := scanGo_progress table _ [] current_pos w np hs
    have hlen : (bit_stream.drop current_pos).length
        = bit_stream.length - current_pos := List.length_drop _ _
    by_cases hcp : current_pos ≤ bit_stream.length
    · omega
    · exfalso
      have : bit_stream.drop current_pos = [] :=
        List.drop_eq_nil_of_le (by omega)
      rw [this] at hs
      simp [scanGo] at hs

/-- With fuel exceeding the number of unread bits, the fueled loop computes
exactly the source loop: the cursor strictly advances every iteration, so
`bit_stream.length + 1` iterations always suffice. -/
theorem accumLoopF_eq (bit_stream : List Char)
    (repT diffT cntT : List (List Char × Int)) (expected : Int) :
    ∀ (fuel current_pos : Nat) (total : Int) (acc : List ((Int × Int) × Int)),
      bit_stream.length - current_pos < fuel →
      accumLoopF bit_stream repT diffT cntT expected fuel current_pos total acc
        = some (accumLoop bit_stream repT diffT cntT expected current_pos
            total acc) := by
  intro fuel
  induction fuel with
  | zero => intro pos total acc h; omega
  | succ fuel ih =>
    intro pos total acc hfuel
    rw [accumLoop.eq_def]
    unfold accumLoopF
    by_cases h : total < expected
    · simp only [if_pos h, dif_pos h]
      by_cases hpos : bit_stream.length ≤ pos
      · simp only [if_pos hpos]
      · simp only [if_neg hpos]
        cases h1 : decode_huffman_stream_item bit_stream pos repT
            rep_color_item with
        | error e => rfl
        | ok p1 =>
          obtain ⟨rep_color_id, pos1⟩ := p1
          simp only []
          cases h2 : decode_huffman_stream_item bit_stream pos1 diffT
              diff_value_item with
          | error e => simp only [h2]
          | ok p2 =>
            obtain ⟨diff_value, pos2⟩ := p2
            simp only [h2]
            cases h3 : decode_huffman_stream_item bit_stream pos2 cntT
                rle_count_item with
            | error e => simp only [h3]
            | ok p3 =>
              obtain ⟨count, pos3⟩ := p3
              simp only [h3]
              by_cases hc : count ≤ 0
              · simp only [if_pos hc, dif_pos hc]
              · simp only [if_neg hc, dif_neg hc]
                have q1 := decode_huffman_stream_item_progress _ _ _ _ _ _ h1
                have q2 := decode_huffman_stream_item_progress _ _ _ _ _ _ h2
                have q3 := decode_huffman_stream_item_progress _ _ _ _ _ _ h3
                exact ih pos3 (total + count) _ (by omega)
    · simp only [if_neg h, dif_neg h]

/-- Evaluation bridge: a run of the fueled loop with sufficient fuel
computes the value of `accumLoop`. -/
theorem accumLoop_eval (bit_stream : List Char)
    (repT diffT cntT : List (List Char × Int)) (expected : Int)
    (fuel current_pos : Nat) (total : Int) (acc : List ((Int × Int) × Int))
    (r : Except DecodeError (List ((Int × Int) × Int) × Int × Nat))
    (hfuel : bit_stream.length - current_pos < fuel)
    (h : accumLoopF bit_stream repT diffT cntT expected fuel current_pos
      total acc = some r) :
    accumLoop bit_stream repT diffT cntT expected current_pos total acc = r :=
  Option.some.inj
    (((accumLoopF_eq bit_stream repT diffT cntT expected fuel current_pos
      total acc hfuel).symm).trans h)

/-- Post-loop tail of `decode_image_data` (overrun and underrun checks,
trailing-bits diagnostic, steps 3 and 4), as a function of the accumulator
loop's outcome. -/
def postProcess (bit_stream : List Char) (reps : List Int) (ps : Int)
    (expected : Int)
    (r : Except DecodeError (List ((Int × Int) × Int) × Int × Nat)) :
    Except DecodeError (List Int × Option (Nat × List Char)) :=
  match r with
  | .error e => .error e
  | .ok (rle, total, pos) =>
    if expected < total then
      .error (.overrunPixelCount expected total)
    else if total < expected ∧ pos = bit_stream.length then
      .error (.exhaustedStreamUnderrun total expected)
    else if ((rleExpand rle).length : Int) ≠ expected then
      .error (.internalRleMismatch (rleExpand rle).length expected)
    else
      match reconstructPixels reps ps (rleExpand rle) with
      | .error e => .error e
      | .ok finals =>
        .ok (finals,
          if pos < bit_stream.length then
            some (bit_stream.length - pos, (bit_stream.drop pos).take 30)
          else none)

/-- Stage decomposition of `decode_image_data`: once the bit expansion and
the accumulator loop results are known, the decoder is the post-processing
of steps 3 and 4. -/
theorem decode_image_data_stages (encoded_string : List Char)
    (cb : List (Char × List Char)) (t1 t2 t3 : List (List Char × Int))
    (reps : List Int) (ps : Int) (w h : Nat) (bit_stream : List Char)
    (r : Except DecodeError (List ((Int × Int) × Int) × Int × Nat))
    (hexp : expandGo cb 0 encoded_string = .ok bit_stream)
    (hacc : accumLoop bit_stream t1 t2 t3 ((w : Int) * (h : Int)) 0 0 [] = r) :
    decode_image_data encoded_string cb t1 t2 t3 reps ps w h
      = postProcess bit_stream reps ps ((w : Int) * (h : Int)) r := by
  unfold decode_image_data postProcess
  simp only [hexp, hacc]

/-- Concrete-evaluation bridge for the whole decoder: both hypotheses and
the conclusion's right-hand side are computable, so concrete runs follow by
`rfl`. -/
theorem decode_image_data_eval {encoded_string : List Char}
    {cb : List (Char × List Char)} {t1 t2 t3 : List (List Char × Int)}
    {reps : List Int} {ps : Int} {w h : Nat} {bit_stream : List Char}
    {r : Except DecodeError (List ((Int × Int) × Int) × Int × Nat)}
    {out : Except DecodeError (List Int × Option (Nat × List Char))}
    (hexp : expandGo cb 0 encoded_string = .ok bit_stream)
    (hF : accumLoopF bit_stream t1 t2 t3 ((w : Int) * (h : Int))
      (bit_stream.length + 1) 0 0 [] = some r)
    (hout : postProcess bit_stream reps ps ((w : Int) * (h : Int)) r = out) :
    decode_image_data encoded_string cb t1 t2 t3 reps ps w h = out := by
  rw [decode_image_data_stages encoded_string cb t1 t2 t3 reps ps w h
    bit_stream r hexp
    (accumLoop_eval bit_stream t1 t2 t3 ((w : Int) * (h : Int))
      (bit_stream.length + 1) 0 0 [] r (by omega) hF)]
  exact hout

/-- Total pixel count promised by a list of RLE records (sum of the
repeat counts, clamped at zero as Python list repetition is). -/
def natPixelSum (l : List ((Int × Int) × Int)) : Nat :=
  (l.map (fun r => r.2.toNat)).sum

/-- Flat RLE expansion produces exactly the promised number of pairs. -/
theorem rleExpand_length (l : List ((Int × Int) × Int)) :
    (rleExpand l).length = natPixelSum l := by
  induction l with
  | nil => rfl
  | cons r rest ih =>
    simp only [rleExpand, natPixelSum, List.map_cons, List.sum_cons,
      List.length_append, List.length_replicate]
    simp only [natPixelSum] at ih
    omega

/-- Appending one record adds its clamped count to the pixel sum. -/
theorem natPixelSum_append (l : List ((Int × Int) × Int))
    (r : (Int × Int) × Int) :
    natPixelSum (l ++ [r]) = natPixelSum l + r.2.toNat := by
  simp [natPixelSum]

/-- A successful scanner call produces a `huffmanDecodeError`-shaped error
never: conversely, every scanner error is a `huffmanDecodeError` tagged with
the item name and position it was called with. -/
theorem decode_huffman_stream_item_error_shape (bit_stream : List Char)
    (current_pos : Nat) (table : List (List Char × Int)) (item_name : String)
    (e : DecodeError)
    (h : decode_huffman_stream_item bit_stream current_pos table item_name
      = .error e) :
    ∃ tb cb ca, e = .huffmanDecodeError item_name current_pos tb cb ca := by
  unfold decode_huffman_stream_item at h
  cases hs : scanGo table [] current_pos (bit_stream.drop current_pos) with
  | none =>
    rw [hs] at h
    simp only [Except.error.injEq] at h
    exact ⟨_, _, _, h.symm⟩
  | some p =>
    obtain ⟨w, np⟩ := p
    rw [hs] at h
    exact absurd h (by simp)

/-- Invariant of the fueled loop: a successful exit satisfies the expected
pixel count, and the pixel sum of the produced records accounts exactly for
the growth of the accumulated total. -/
theorem accumLoopF_ok_inv (bit_stream : List Char)
    (repT diffT cntT : List (List Char × Int)) (expected : Int) :
    ∀ (fuel current_pos : Nat) (total : Int) (acc : List ((Int × Int) × Int))
      (rle : List ((Int × Int) × Int)) (total' : Int) (pos' : Nat),
      accumLoopF bit_stream repT diffT cntT expected fuel current_pos total
        acc = some (.ok (rle, total', pos')) →
      expected ≤ total' ∧
        (natPixelSum rle : Int) + total = (natPixelSum acc : Int) + total' := by
  intro fuel
  induction fuel with
  | zero => intro pos total acc rle total' pos' h; simp [accumLoopF] at h
  | succ fuel ih =>
    intro pos total acc rle total' pos' h
    unfold accumLoopF at h
    by_cases hlt : total < expected
    · rw [if_pos hlt] at h
      by_cases hpos : bit_stream.length ≤ pos
      · rw [if_pos hpos, if_pos hlt] at h
        simp at h
      · rw [if_neg hpos] at h
        cases h1 : decode_huffman_stream_item bit_stream pos repT
            rep_color_item with
        | error e => simp [h1] at h
        | ok p1 =>
          obtain ⟨rep_color_id, pos1⟩ := p1
          simp only [h1] at h
          cases h2 : decode_huffman_stream_item bit_stream pos1 diffT
              diff_value_item with
          | error e => simp [h2] at h
          | ok p2 =>
            obtain ⟨diff_value, pos2⟩ := p2
            simp only [h2] at h
            cases h3 : decode_huffman_stream_item bit_stream pos2 cntT
                rle_count_item with
            | error e => simp [h3] at h
            | ok p3 =>
              obtain ⟨count, pos3⟩ := p3
              simp only [h3] at h
              by_cases hc : count ≤ 0
              · rw [if_pos hc] at h; simp at h
              · rw [if_neg hc] at h
                have := ih pos3 (total + count) _ rle total' pos' h
                rw [natPixelSum_append] at this
                push_cast at this ⊢
                omega
    · rw [if_neg hlt] at h
      simp only [Option.some.injEq, Except.ok.injEq, Prod.mk.injEq] at h
      obtain ⟨h1, h2, h3⟩ := h
      subst h1 h2
      exact ⟨le_of_not_lt hlt, by omega⟩

/-- Invariant of the source loop, by transfer from the fueled loop. -/
theorem accumLoop_ok_inv (bit_stream : List Char)
    (repT diffT cntT : List (List Char × Int)) (expected : Int)
    (current_pos : Nat) (total : Int) (acc : List ((Int × Int) × Int))
    (rle : List ((Int × Int) × Int)) (total' : Int) (pos' : Nat)
    (h : accumLoop bit_stream repT diffT cntT expected current_pos total acc
      = .ok (rle, total', pos')) :
    expected ≤ total' ∧
      (natPixelSum rle : Int) + total = (natPixelSum acc : Int) + total' := by
  apply accumLoopF_ok_inv bit_stream repT diffT cntT expected
    (bit_stream.length - current_pos + 1) current_pos total acc rle total' pos'
  rw [accumLoopF_eq bit_stream repT diffT cntT expected _ current_pos total
    acc (by omega), h]

/-- Pixel reconstruction is length-preserving when it succeeds. -/
theorem reconstructPixels_length (reps : List Int) (ps : Int) :
    ∀ (pairs : List (Int × Int)) (l : List Int),
      reconstructPixels reps ps pairs = .ok l → l.length = pairs.length := by
  intro pairs
  induction pairs with
  | nil => intro l h; simp only [reconstructPixels, Except.ok.injEq] at h; simp [← h]
  | cons p rest ih =>
    intro l h
    obtain ⟨rep_color_id, diff_value⟩ := p
    unfold reconstructPixels at h
    by_cases hb : 0 ≤ rep_color_id ∧ rep_color_id < (reps.length : Int)
    · rw [if_pos hb] at h
      by_cases hz : ps = 0
      · rw [if_pos hz] at h; simp at h
      · rw [if_neg hz] at h
        cases hr : reconstructPixels reps ps rest with
        | error e => simp [hr] at h
        | ok tail =>
          simp only [hr, Except.ok.injEq] at h
          subst h
          simp [ih tail hr]
    · rw [if_neg hb] at h; simp at h

/-- For a positive palette size every successfully reconstructed pixel index
lies in `[0, palette_size)`. -/
theorem reconstructPixels_range (reps : List Int) (ps : Int) (hps : 0 < ps) :
    ∀ (pairs : List (Int × Int)) (l : List Int),
      reconstructPixels reps ps pairs = .ok l →
      ∀ x ∈ l, 0 ≤ x ∧ x < ps := by
  intro pairs
  induction pairs with
  | nil =>
    intro l h
    simp only [reconstructPixels, Except.ok.injEq] at h
    simp [← h]
  | cons p rest ih =>
    intro l h
    obtain ⟨rep_color_id, diff_value⟩ := p
    unfold reconstructPixels at h
    by_cases hb : 0 ≤ rep_color_id ∧ rep_color_id < (reps.length : Int)
    · rw [if_pos hb] at h
      by_cases hz : ps = 0
      · rw [if_pos hz] at h; simp at h
      · rw [if_neg hz] at h
        cases hr : reconstructPixels reps ps rest with
        | error e => simp [hr] at h
        | ok tail =>
          simp only [hr, Except.ok.injEq] at h
          subst h
          intro x hx
          rcases List.mem_cons.mp hx with hx | hx
          · subst hx
            constructor
            · rw [Int.fmod_eq_emod _ (le_of_lt hps)]
              exact Int.emod_nonneg _ (by omega)
            · exact Int.fmod_lt_of_pos _ hps
          · exact ih tail hr x hx
    · rw [if_neg hb] at h; simp at h

/-- Every error of the pixel reconstructor is an invalid representative id
or the division-by-zero failure. -/
theorem reconstructPixels_error_shape (reps : List Int) (ps : Int) :
    ∀ (pairs : List (Int × Int)) (e : DecodeError),
      reconstructPixels reps ps pairs = .error e →
      (∃ i n, e = .invalidRepresentativeColorId i n) ∨
        e = .zeroDivisionError := by
  intro pairs
  induction pairs with
  | nil => intro e h; simp [reconstructPixels] at h
  | cons p rest ih =>
    intro e h
    obtain ⟨rep_color_id, diff_value⟩ := p
    unfold reconstructPixels at h
    by_cases hb : 0 ≤ rep_color_id ∧ rep_color_id < (reps.length : Int)
    · rw [if_pos hb] at h
      by_cases hz : ps = 0
      · rw [if_pos hz] at h
        simp only [Except.error.injEq] at h
        exact Or.inr h.symm
      · rw [if_neg hz] at h
        cases hr : reconstructPixels reps ps rest with
        | error e2 =>
          simp only [hr, Except.error.injEq] at h
          subst h
          exact ih _ hr
        | ok tail => simp [hr] at h
    · rw [if_neg hb] at h
      simp only [Except.error.injEq] at h
      exact Or.inl ⟨_, _, h.symm⟩

/-- Every error of the bit expander is an `invalidCharacter`. -/
theorem expandGo_error_shape (cb : List (Char × List Char)) :
    ∀ (s : List Char) (n : Nat) (e : DecodeError),
      expandGo cb n s = .error e → ∃ i c, e = .invalidCharacter i c := by
  intro s
  induction s with
  | nil => intro n e h; simp [expandGo] at h
  | cons c rest ih =>
    intro n e h
    unfold expandGo at h
    cases hc : dictLookup cb c with
    | none =>
      rw [hc] at h
      simp only [Except.error.injEq] at h
      exact ⟨_, _, h.symm⟩
    | some bits =>
      rw [hc] at h
      cases hr : expandGo cb (n + 1) rest with
      | error e2 =>
        simp only [hr, Except.error.injEq] at h
        subst h
        exact ih (n + 1) _ hr
      | ok tail => simp [hr] at h

/-- When every character is mapped, the expander returns the concatenation
of the codes in input order. -/
theorem expandGo_ok (cb : List (Char × List Char)) :
    ∀ (s : List Char) (n : Nat),
      (∀ c ∈ s, (dictLookup cb c).isSome) →
      expandGo cb n s
        = .ok ((s.map (fun c => (dictLookup cb c).getD [])).flatten) := by
  intro s
  induction s with
  | nil => intro n hall; rfl
  | cons c rest ih =>
    intro n hall
    have hc : (dictLookup cb c).isSome := hall c (List.mem_cons_self c rest)
    unfold expandGo
    cases hcl : dictLookup cb c with
    | none => rw [hcl] at hc; simp at hc
    | some bits =>
      simp only [hcl]
      rw [ih (n + 1) (fun x hx => hall x (List.mem_cons_of_mem _ hx))]
      simp [hcl]

/-- The expander fails at the first unmapped character, reporting its
0-based position offset by the starting index. -/
theorem expandGo_error_at (cb : List (Char × List Char)) :
    ∀ (s : List Char) (n i : Nat) (hi : i < s.length),
      dictLookup cb s[i] = none →
      (∀ j, j < i → ∀ (hj : j < s.length), (dictLookup cb s[j]).isSome) →
      expandGo cb n s = .error (.invalidCharacter (n + i) s[i]) := by
  intro s
  induction s with
  | nil => intro n i hi; simp at hi
  | cons c rest ih =>
    intro n i hi hnone hmin
    cases i with
    | zero =>
      simp only [List.getElem_cons_zero] at hnone ⊢
      unfold expandGo
      rw [hnone]
      simp
    | succ i =>
      have hc : (dictLookup cb c).isSome := by
        have := hmin 0 (by omega) (by simp)
        simpa using this
      unfold expandGo
      cases hcl : dictLookup cb c with
      | none => rw [hcl] at hc; simp at hc
      | some bits =>
        simp only [hcl]
        simp only [List.getElem_cons_succ] at hnone ⊢
        rw [ih (n + 1) i (by simpa using hi) hnone
          (fun j hj hj2 => by
            have := hmin (j + 1) (by omega) (by simpa using hj2)
            simpa using this)]
        simp only [Nat.add_assoc, Nat.add_comm 1 i]

/-- The candidate scan returns the shortest match: if bits `[i, i+m)` (the
first `m` of `rest`, appended to the already-built candidate) hit the table
and no strictly shorter nonempty extension does, the scan stops there. -/
theorem scanGo_found (table : List (List Char × Int)) :
    ∀ (rest pfx : List Char) (i m : Nat) (v : Int),
      1 ≤ m → m ≤ rest.length →
      dictLookup table (pfx ++ rest.take m) = some v →
      (∀ k, 1 ≤ k → k < m → dictLookup table (pfx ++ rest.take k) = none) →
      scanGo table pfx i rest = some (v, i + m) := by
  intro rest
  induction rest with
  | nil => intro pfx i m v h1 h2 hv hmin; simp at h2; omega
  | cons b bs ih =>
    intro pfx i m v h1 h2 hv hmin
    cases m with
    | zero => omega
    | succ m =>
      cases Nat.eq_zero_or_pos m with
      | inl hm0 =>
        subst hm0
        simp only [List.take_succ_cons, List.take_zero] at hv
        unfold scanGo
        rw [hv]
      | inr hmpos =>
        have hb : dictLookup table (pfx ++ [b]) = none := by
          have := hmin 1 (le_refl 1) (by omega)
          simpa using this
        unfold scanGo
        rw [hb]
        have hv' : dictLookup table ((pfx ++ [b]) ++ bs.take m) = some v := by
          simpa [List.append_assoc] using hv
        have hmin' : ∀ k, 1 ≤ k → k < m →
            dictLookup table ((pfx ++ [b]) ++ bs.take k) = none := by
          intro k hk1 hk2
          have := hmin (k + 1) (by omega) (by omega)
          simpa [List.append_assoc] using this
        have harith : i + 1 + m = i + (m + 1) := by omega
        rw [ih (pfx ++ [b]) (i + 1) m v hmpos (by simpa using h2) hv' hmin',
          harith]

/-- If no nonempty extension of the candidate within the remaining bits is
in the table, the scan runs off the end and fails. -/
theorem scanGo_none (table : List (List Char × Int)) :
    ∀ (rest pfx : List Char) (i : Nat),
      (∀ k, 1 ≤ k → k ≤ rest.length →
        dictLookup table (pfx ++ rest.take k) = none) →
      scanGo table pfx i rest = none := by
  intro rest
  induction rest with
  | nil => intro pfx i hmin; rfl
  | cons b bs ih =>
    intro pfx i hmin
    have hb : dictLookup table (pfx ++ [b]) = none := by
      have := hmin 1 (le_refl 1) (by simp)
      simpa using this
    unfold scanGo
    rw [hb]
    exact ih (pfx ++ [b]) (i + 1) (fun k hk1 hk2 => by
      have := hmin (k + 1) (by omega) (by simpa using hk2)
      simpa [List.append_assoc] using this)

/-- The fueled loop never produces the defensive underrun or RLE-mismatch
errors: its failures are premature end, bad run count, or scanner errors. -/
theorem accumLoopF_error_shape (bit_stream : List Char)
    (repT diffT cntT : List (List Char × Int)) (expected : Int) :
    ∀ (fuel current_pos : Nat) (total : Int) (acc : List ((Int × Int) × Int))
      (e : DecodeError),
      accumLoopF bit_stream repT diffT cntT expected fuel current_pos total
        acc = some (.error e) →
      (∀ a b, e ≠ .exhaustedStreamUnderrun a b) ∧
        (∀ a b, e ≠ .internalRleMismatch a b) := by
  intro fuel
  induction fuel with
  | zero => intro pos total acc e h; simp [accumLoopF] at h
  | succ fuel ih =>
    intro pos total acc e h
    unfold accumLoopF at h
    by_cases hlt : total < expected
    · rw [if_pos hlt] at h
      by_cases hpos : bit_stream.length ≤ pos
      · rw [if_pos hpos, if_pos hlt] at h
        simp only [Option.some.injEq, Except.error.injEq] at h
        subst h
        simp
      · rw [if_neg hpos] at h
        cases h1 : decode_huffman_stream_item bit_stream pos repT
            rep_color_item with
        | error e1 =>
          simp only [h1, Option.some.injEq, Except.error.injEq] at h
          subst h
          obtain ⟨tb, cb, ca, he⟩ :=
            decode_huffman_stream_item_error_shape _ _ _ _ _ h1
          subst he
          simp
        | ok p1 =>
          obtain ⟨rep_color_id, pos1⟩ := p1
          simp only [h1] at h
          cases h2 : decode_huffman_stream_item bit_stream pos1 diffT
              diff_value_item with
          | error e2 =>
            simp only [h2, Option.some.injEq, Except.error.injEq] at h
            subst h
            obtain ⟨tb, cb, ca, he⟩ :=
              decode_huffman_stream_item_error_shape _ _ _ _ _ h2
            subst he
            simp
          | ok p2 =>
            obtain ⟨diff_value, pos2⟩ := p2
            simp only [h2] at h
            cases h3 : decode_huffman_stream_item bit_stream pos2 cntT
                rle_count_item with
            | error e3 =>
              simp only [h3, Option.some.injEq, Except.error.injEq] at h
              subst h
              obtain ⟨tb, cb, ca, he⟩ :=
                decode_huffman_stream_item_error_shape _ _ _ _ _ h3
              subst he
              simp
            | ok p3 =>
              obtain ⟨count, pos3⟩ := p3
              simp only [h3] at h
              by_cases hc : count ≤ 0
              · rw [if_pos hc] at h
                simp only [Option.some.injEq, Except.error.injEq] at h
                subst h
                simp
              · rw [if_neg hc] at h
                exact ih pos3 (total + count) _ e h
    · rw [if_neg hlt] at h
      simp at h

/-- Transfer of `accumLoopF_error_shape` to the source loop. -/
theorem accumLoop_error_shape (bit_stream : List Char)
    (repT diffT cntT : List (List Char × Int)) (expected : Int)
    (current_pos : Nat) (total : Int) (acc : List ((Int × Int) × Int))
    (e : DecodeError)
    (h : accumLoop bit_stream repT diffT cntT expected current_pos total acc
      = .error e) :
    (∀ a b, e ≠ .exhaustedStreamUnderrun a b) ∧
      (∀ a b, e ≠ .internalRleMismatch a b) := by
  apply accumLoopF_error_shape bit_stream repT diffT cntT expected
    (bit_stream.length - current_pos + 1) current_pos total acc e
  rw [accumLoopF_eq bit_stream repT diffT cntT expected _ current_pos total
    acc (by omega), h]

/-- Inversion of a successful decode into the outcomes of its stages. -/
theorem decode_ok_inv (encoded_string : List Char)
    (cb : List (Char × List Char)) (t1 t2 t3 : List (List Char × Int))
    (reps : List Int) (ps : Int) (w h : Nat) (l : List Int)
    (wopt : Option (Nat × List Char))
    (hd : decode_image_data encoded_string cb t1 t2 t3 reps ps w h
      = .ok (l, wopt)) :
    ∃ bit_stream rle total pos,
      expandGo cb 0 encoded_string = .ok bit_stream ∧
      accumLoop bit_stream t1 t2 t3 ((w : Int) * (h : Int)) 0 0 []
        = .ok (rle, total, pos) ∧
      ((rleExpand rle).length : Int) = ((w : Int) * (h : Int)) ∧
      reconstructPixels reps ps (rleExpand rle) = .ok l ∧
      wopt = (if pos < bit_stream.length then
        some (bit_stream.length - pos, (bit_stream.drop pos).take 30)
      else none) := by
  unfold decode_image_data at hd
  cases hexp : expandGo cb 0 encoded_string with
  | error e => simp [hexp] at hd
  | ok bits =>
    simp only [hexp] at hd
    cases hacc : accumLoop bits t1 t2 t3 ((w : Int) * (h : Int)) 0 0 [] with
    | error e => simp [hacc] at hd
    | ok t =>
      obtain ⟨rle, total, pos⟩ := t
      simp only [hacc] at hd
      by_cases h1 : ((w : Int) * (h : Int)) < total
      · rw [if_pos h1] at hd; simp at hd
      · rw [if_neg h1] at hd
        by_cases h2 : total < ((w : Int) * (h : Int)) ∧ pos = bits.length
        · rw [if_pos h2] at hd; simp at hd
        · rw [if_neg h2] at hd
          by_cases h3 : ((rleExpand rle).length : Int)
              ≠ ((w : Int) * (h : Int))
          · rw [if_pos h3] at hd; simp at hd
          · rw [if_neg h3] at hd
            cases hrec : reconstructPixels reps ps (rleExpand rle) with
            | error e => simp [hrec] at hd
            | ok finals =>
              simp only [hrec, Except.ok.injEq, Prod.mk.injEq] at hd
              obtain ⟨hfin, hw⟩ := hd
              exact ⟨bits, rle, total, pos, rfl, hacc, not_ne_iff.mp h3,
                by rw [← hfin]; exact hrec, hw.symm⟩

/-- C1: End-to-end concrete scenario: with the 3-bit codebook `A..H`, rep
table `{0:0, 1:1}`, diff table `{00:0, 01:1, 10:-1}`, count table
`{0:1, 1:2}`, representative palette indices `[10, 100]`, palette size 256,
input `"BADE"`, width 2, height 2, the decoder succeeds and returns exactly
`[11, 10, 10, 99]` (and no trailing-bits diagnostic). -/
theorem C1_concrete_scenario :
    decode_image_data ['B', 'A', 'D', 'E'] char_to_bits_map_example
      rep_color_table_example diff_value_table_example count_table_example
      [10, 100] 256 2 2 = .ok ([11, 10, 10, 99], none) :=
  decode_image_data_eval rfl rfl rfl

/-- C2: Prefix-code scanner contract: for every bit stream, start position
and prefix table, if some length `m ≥ 1` with `p + m ≤ |s|` makes
`s[p..p+m)` a table key and no shorter nonempty candidate does, the scanner
returns the table value for `s[p..p+m)` together with cursor `p + m` — the
shortest match; if no candidate of any length within the stream is a key,
it raises a Huffman-decode error.  With table `{0:0, 1:1}` on `"01"`,
scanning at 0 gives `(0, 1)` and at 1 gives `(1, 2)`. -/
theorem C2_prefix_scanner_contract :
    (∀ (s : List Char) (p : Nat) (T : List (List Char × Int))
      (name : String) (m : Nat) (v : Int),
      1 ≤ m → p + m ≤ s.length →
      dictLookup T ((s.drop p).take m) = some v →
      (∀ k, 1 ≤ k → k < m → dictLookup T ((s.drop p).take k) = none) →
      decode_huffman_stream_item s p T name = .ok (v, p + m)) ∧
    (∀ (s : List Char) (p : Nat) (T : List (List Char × Int))
      (name : String),
      (∀ k, 1 ≤ k → p + k ≤ s.length →
        dictLookup T ((s.drop p).take k) = none) →
      decode_huffman_stream_item s p T name
        = .error (.huffmanDecodeError name p (s.drop p)
            ((s.take p).drop (p - 20)) ((s.drop p).take 40))) ∧
    decode_huffman_stream_item ['0', '1'] 0 rep_color_table_example
      rep_color_item = .ok (0, 1) ∧
    decode_huffman_stream_item ['0', '1'] 1 rep_color_table_example
      rep_color_item = .ok (1, 2) := by
  refine ⟨?_, ?_, rfl, rfl⟩
  · intro s p T name m v h1 h2 hv hmin
    unfold decode_huffman_stream_item
    rw [scanGo_found T (s.drop p) [] p m v h1
      (by rw [List.length_drop]; omega) (by simpa using hv)
      (fun k hk1 hk2 => by simpa using hmin k hk1 hk2)]
  · intro s p T name hnone
    unfold decode_huffman_stream_item
    rw [scanGo_none T (s.drop p) [] p (fun k hk1 hk2 => by
      rw [List.length_drop] at hk2
      simpa using hnone k hk1 (by omega))]

/-- Witness for C2: the scanner theorem applied to table `{0:0, 1:1}` and
stream `"01"` at position 0 with shortest match length 1. -/
theorem C2_prefix_scanner_contract_witness :
    decode_huffman_stream_item ['0', '1'] 0 rep_color_table_example
      diff_value_item = .ok (0, 0 + 1) :=
  C2_prefix_scanner_contract.1 ['0', '1'] 0 rep_color_table_example
    diff_value_item 1 0 (by omega) (by decide) (by decide)
    (by intro k hk1 hk2; omega)

/-- C3 counterexample: a decode that succeeds with palette size −1 returns
the pixel index 0, which does not lie in the (empty) interval `[0, -1)`, so
the range guarantee fails without a positivity assumption on the palette
size. -/
theorem C3_output_shape_counterexample :
    decode_image_data ['A'] [('A', ['0', '0', '0'])] [(['0'], 0)]
      [(['0'], 0)] [(['0'], 1)] [0] (-1) 1 1 = .ok ([0], none) ∧
    ¬ ((0 : Int) ≤ 0 ∧ (0 : Int) < -1) :=
  ⟨decode_image_data_eval rfl rfl rfl, by decide⟩

/-- C3 (amended): for every input on which the decoder succeeds, the pixel
list has length exactly `width * height` — unconditionally; and provided
the palette size is positive, every element lies in `[0, palette_size)`. -/
theorem C3_output_shape_amended (encoded_string : List Char)
    (cb : List (Char × List Char)) (t1 t2 t3 : List (List Char × Int))
    (reps : List Int) (ps : Int) (w h : Nat) (l : List Int)
    (wopt : Option (Nat × List Char))
    (hd : decode_image_data encoded_string cb t1 t2 t3 reps ps w h
      = .ok (l, wopt)) :
    l.length = w * h ∧ (0 < ps → ∀ x ∈ l, 0 ≤ x ∧ x < ps) := by
  obtain ⟨bits, rle, total, pos, hexp, hacc, hlen, hrec, hw⟩ :=
    decode_ok_inv _ _ _ _ _ _ _ _ _ _ _ hd
  constructor
  · have h1 : (rleExpand rle).length = w * h := by exact_mod_cast hlen
    rw [reconstructPixels_length reps ps _ _ hrec, h1]
  · exact fun hps => reconstructPixels_range reps ps hps _ _ hrec

/-- Witness for the amended C3, at the concrete scenario of the example
tables. -/
theorem C3_output_shape_amended_witness :
    ([11, 10, 10, 99] : List Int).length = 2 * 2 ∧
      ((0 : Int) < 256 →
        ∀ x ∈ ([11, 10, 10, 99] : List Int), 0 ≤ x ∧ x < 256) :=
  C3_output_shape_amended ['B', 'A', 'D', 'E'] char_to_bits_map_example
    rep_color_table_example diff_value_table_example count_table_example
    [10, 100] 256 2 2 [11, 10, 10, 99] none
    (decode_image_data_eval rfl rfl rfl)

/-- C4 counterexample: with representative base 10, difference −15 and
palette size −16, the reconstructed index is −5: Python's modulo takes the
divisor's sign, so the promised non-negative result in `[0, paletteSize)`
fails for a negative palette size. -/
theorem C4_modular_wraparound_counterexample :
    reconstructPixels [10] (-16) [((0 : Int), (-15 : Int))] = .ok [-5] ∧
      ¬ ((0 : Int) ≤ -5) :=
  ⟨rfl, by decide⟩

/-- C4 (amended): for a positive palette size, every in-bounds
representative id and arbitrary (possibly negative) difference reconstruct
to `(representativePaletteIndices[repId] + diff) mod paletteSize`, a
non-negative value in `[0, paletteSize)`; concretely 100 − 1 mod 256 = 99
and 10 − 15 mod 16 = 11. -/
theorem C4_modular_wraparound_amended :
    (∀ (reps : List Int) (ps repId diff : Int) (rest : List (Int × Int))
      (l : List Int),
      0 < ps → 0 ≤ repId → repId < (reps.length : Int) →
      reconstructPixels reps ps ((repId, diff) :: rest) = .ok l →
      ∃ t, l = (reps.getD repId.toNat 0 + diff) % ps :: t ∧
        0 ≤ (reps.getD repId.toNat 0 + diff) % ps ∧
        (reps.getD repId.toNat 0 + diff) % ps < ps) ∧
    reconstructPixels [100] 256 [((0 : Int), (-1 : Int))] = .ok [99] ∧
    reconstructPixels [10] 16 [((0 : Int), (-15 : Int))] = .ok [11] := by
  refine ⟨?_, rfl, rfl⟩
  intro reps ps repId diff rest l hps h0 hlt hrec
  unfold reconstructPixels at hrec
  rw [if_pos ⟨h0, hlt⟩, if_neg (by omega)] at hrec
  cases hr : reconstructPixels reps ps rest with
  | error e => simp [hr] at hrec
  | ok tail =>
    simp only [hr, Except.ok.injEq] at hrec
    subst hrec
    rw [Int.fmod_eq_emod _ (le_of_lt hps)]
    exact ⟨tail, rfl, Int.emod_nonneg _ (by omega), Int.emod_lt_of_pos _ hps⟩

/-- Witness for the amended C4, at base 100, difference −1, palette size
256. -/
theorem C4_modular_wraparound_amended_witness :
    ∃ t, ([99] : List Int)
        = (([100] : List Int).getD (0 : Int).toNat 0 + -1) % 256 :: t ∧
      0 ≤ (([100] : List Int).getD (0 : Int).toNat 0 + -1) % 256 ∧
      (([100] : List Int).getD (0 : Int).toNat 0 + -1) % 256 < 256 :=
  C4_modular_wraparound_amended.1 [100] 256 0 (-1) [] [99] (by omega)
    (by omega) (by decide) rfl

/-- C5: Premature-end detection: whenever an accumulator iteration starts
with the cursor at or beyond the end of the stream while the accumulated
count is still below the expected pixel count, the loop fails with
`prematureEndOfStream` carrying the expected and accumulated counts (the
decoder propagates this error, so no pixel list is returned); concretely,
input `"BAEC"` under the example tables accumulates only 3 of the 4
expected pixels and fails exactly this way. -/
theorem C5_premature_end :
    (∀ (bit_stream : List Char) (t1 t2 t3 : List (List Char × Int))
      (expected : Int) (current_pos : Nat) (total : Int)
      (acc : List ((Int × Int) × Int)),
      bit_stream.length ≤ current_pos → total < expected →
      accumLoop bit_stream t1 t2 t3 expected current_pos total acc
        = .error (.prematureEndOfStream expected total current_pos
            bit_stream.length)) ∧
    decode_image_data ['B', 'A', 'E', 'C'] char_to_bits_map_example
      rep_color_table_example diff_value_table_example count_table_example
      [10, 100] 256 2 2 = .error (.prematureEndOfStream 4 3 12 12) := by
  constructor
  · intro bits t1 t2 t3 expected pos total acc hpos hlt
    rw [accumLoop.eq_def, dif_pos hlt, if_pos hpos, if_pos hlt]
  · exact decode_image_data_eval rfl rfl rfl

/-- Witness for C5: the loop at an exhausted empty stream with zero of one
expected pixels accumulated. -/
theorem C5_premature_end_witness :
    accumLoop [] rep_color_table_example diff_value_table_example
      count_table_example 1 0 0 []
      = .error (.prematureEndOfStream 1 0 0 0) :=
  C5_premature_end.1 [] rep_color_table_example diff_value_table_example
    count_table_example 1 0 0 [] (by decide) (by decide)

/-- C6 counterexample: with codebook `'A' → "0000"`, single-key tables and
an empty representative-palette table, the run records reach exactly the
expected one pixel while one bit remains unconsumed, yet the decode fails
(with an invalid representative color id) rather than succeeding — so
reaching the pixel count with trailing bits does not by itself guarantee a
successful decode. -/
theorem C6_trailing_bits_counterexample :
    accumLoop ['0', '0', '0', '0'] [(['0'], 0)] [(['0'], 0)] [(['0'], 1)]
      1 0 0 [] = .ok ([((0, 0), 1)], 1, 3) ∧
    decode_image_data ['A'] [('A', ['0', '0', '0', '0'])] [(['0'], 0)]
      [(['0'], 0)] [(['0'], 1)] [] 256 1 1
      = .error (.invalidRepresentativeColorId 0 0) :=
  ⟨accumLoop_eval _ _ _ _ _ 5 0 0 [] _ (by decide) rfl,
    decode_image_data_eval rfl rfl rfl⟩

/-- C6 (amended): trailing bits are never themselves an error: if the
accumulator loop returns with exactly the expected pixel count and the
cursor strictly before the end of the stream, the decoder reports only the
non-fatal diagnostic (remaining bit count and the first 30 unconsumed
bits) and, whenever pixel reconstruction succeeds, succeeds with the full
pixel list. -/
theorem C6_trailing_bits_amended (encoded_string : List Char)
    (cb : List (Char × List Char)) (t1 t2 t3 : List (List Char × Int))
    (reps : List Int) (ps : Int) (w h : Nat) (bit_stream : List Char)
    (rle : List ((Int × Int) × Int)) (pos : Nat) (l : List Int)
    (hexp : expandGo cb 0 encoded_string = .ok bit_stream)
    (hacc : accumLoop bit_stream t1 t2 t3 ((w : Int) * (h : Int)) 0 0 []
      = .ok (rle, ((w : Int) * (h : Int)), pos))
    (hpos : pos < bit_stream.length)
    (hrec : reconstructPixels reps ps (rleExpand rle) = .ok l) :
    decode_image_data encoded_string cb t1 t2 t3 reps ps w h
      = .ok (l, some (bit_stream.length - pos,
          (bit_stream.drop pos).take 30)) := by
  have hsum := (accumLoop_ok_inv _ _ _ _ _ _ _ _ _ _ _ hacc).2
  have hsum' : ((natPixelSum rle : Int)) = ((w : Int) * (h : Int)) := by
    simpa [natPixelSum] using hsum
  have hlen : ((rleExpand rle).length : Int) = ((w : Int) * (h : Int)) := by
    rw [rleExpand_length]
    exact hsum'
  rw [decode_image_data_stages encoded_string cb t1 t2 t3 reps ps w h
    bit_stream _ hexp hacc]
  unfold postProcess
  simp only []
  rw [if_neg (lt_irrefl ((w : Int) * (h : Int))),
    if_neg (fun hcon => absurd hcon.1 (lt_irrefl _)),
    if_neg (not_not_intro hlen)]
  simp only [hrec]
  rw [if_pos hpos]

/-- Witness for the amended C6: `"BADEA"` leaves three trailing zero bits
and still decodes to `[11, 10, 10, 99]`, reporting the tail. -/
theorem C6_trailing_bits_amended_witness :
    decode_image_data ['B', 'A', 'D', 'E', 'A'] char_to_bits_map_example
      rep_color_table_example diff_value_table_example count_table_example
      [10, 100] 256 2 2
      = .ok ([11, 10, 10, 99], some (3, ['0', '0', '0'])) :=
  C6_trailing_bits_amended ['B', 'A', 'D', 'E', 'A'] char_to_bits_map_example
    rep_color_table_example diff_value_table_example count_table_example
    [10, 100] 256 2 2
    ['0', '0', '1', '0', '0', '0', '0', '1', '1', '1', '0', '0', '0', '0',
      '0']
    [((0, 1), 1), ((0, 0), 2), ((1, -1), 1)] 12 [11, 10, 10, 99]
    rfl (accumLoop_eval _ _ _ _ _ 16 0 0 [] _ (by decide) rfl)
    (by decide) rfl

/-- C7: Bit expander contract: if every character of the input has a
codebook entry, the expanded stream is the concatenation of the codes in
input order; otherwise expansion fails at the first unmapped character,
reporting that character and its 0-based index (even mid-string), and — the
result being an error — no partial output is returned. -/
theorem C7_bit_expander_contract :
    (∀ (cb : List (Char × List Char)) (s : List Char),
      (∀ c ∈ s, (dictLookup cb c).isSome) →
      expandGo cb 0 s
        = .ok ((s.map (fun c => (dictLookup cb c).getD [])).flatten)) ∧
    (∀ (cb : List (Char × List Char)) (s : List Char) (i : Nat)
      (hi : i < s.length),
      dictLookup cb s[i] = none →
      (∀ j, j < i → ∀ (hj : j < s.length), (dictLookup cb s[j]).isSome) →
      expandGo cb 0 s = .error (.invalidCharacter i s[i])) := by
  constructor
  · exact fun cb s hall => expandGo_ok cb s 0 hall
  · intro cb s i hi hnone hmin
    have := expandGo_error_at cb s 0 i hi hnone hmin
    simpa using this

/-- Witness for C7: character `'X'` at index 2 of `"BAXE"` is unmapped, the
two earlier characters are mapped, and expansion reports index 2. -/
theorem C7_bit_expander_contract_witness :
    expandGo char_to_bits_map_example 0 ['B', 'A', 'X', 'E']
      = .error (.invalidCharacter 2 'X') :=
  C7_bit_expander_contract.2 char_to_bits_map_example ['B', 'A', 'X', 'E'] 2
    (by decide) (by decide)
    (by
      intro j hj hj2
      rcases j with _ | _ | j
      · rfl
      · rfl
      · omega)

/-- Every decoder error is one of the reachable kinds: the defensive
`exhaustedStreamUnderrun` and `internalRleMismatch` branches never fire. -/
theorem decode_image_data_error_shape (encoded_string : List Char)
    (cb : List (Char × List Char)) (t1 t2 t3 : List (List Char × Int))
    (reps : List Int) (ps : Int) (w h : Nat) (e : DecodeError)
    (hd : decode_image_data encoded_string cb t1 t2 t3 reps ps w h
      = .error e) :
    (∀ a b, e ≠ .exhaustedStreamUnderrun a b) ∧
      (∀ n b, e ≠ .internalRleMismatch n b) := by
  unfold decode_image_data at hd
  cases hexp : expandGo cb 0 encoded_string with
  | error e1 =>
    simp only [hexp, Except.error.injEq] at hd
    subst hd
    obtain ⟨i, c, he⟩ := expandGo_error_shape cb encoded_string 0 e1 hexp
    subst he
    simp
  | ok bits =>
    simp only [hexp] at hd
    cases hacc : accumLoop bits t1 t2 t3 ((w : Int) * (h : Int)) 0 0 [] with
    | error e1 =>
      simp only [hacc, Except.error.injEq] at hd
      subst hd
      exact accumLoop_error_shape _ _ _ _ _ _ _ _ _ hacc
    | ok t =>
      obtain ⟨rle, total, pos⟩ := t
      simp only [hacc] at hd
      have hinv := accumLoop_ok_inv _ _ _ _ _ _ _ _ _ _ _ hacc
      by_cases h1 : ((w : Int) * (h : Int)) < total
      · rw [if_pos h1] at hd
        simp only [Except.error.injEq] at hd
        subst hd
        simp
      · rw [if_neg h1,
          if_neg (fun hcon => absurd hcon.1 (not_lt.mpr hinv.1))] at hd
        have htotal : total = ((w : Int) * (h : Int)) :=
          le_antisymm (not_lt.mp h1) hinv.1
        have hlen : ((rleExpand rle).length : Int)
            = ((w : Int) * (h : Int)) := by
          rw [rleExpand_length]
          have hsum' : ((natPixelSum rle : Int)) = total := by
            simpa [natPixelSum] using hinv.2
          rw [hsum', htotal]
        rw [if_neg (not_not_intro hlen)] at hd
        cases hrec : reconstructPixels reps ps (rleExpand rle) with
        | error e1 =>
          simp only [hrec, Except.error.injEq] at hd
          subst hd
          rcases reconstructPixels_error_shape reps ps _ e1 hrec with
            ⟨i, n, he⟩ | he
          · subst he; simp
          · subst he; simp
        | ok finals => simp [hrec] at hd

/-- C8: the two defensive checks are unreachable: a loop that exits without
raising has accumulated at least the expected count, so the post-loop
underrun branch cannot fire; and when the accumulated count equals the
expected count, the flat RLE expansion has exactly that length, so the
internal mismatch branch cannot fire.  Consequently the decoder never
returns either error, on any input. -/
theorem C8_defensive_checks_unreachable :
    (∀ (bit_stream : List Char) (t1 t2 t3 : List (List Char × Int))
      (expected : Int) (current_pos : Nat) (total : Int)
      (acc rle : List ((Int × Int) × Int)) (total' : Int) (pos' : Nat),
      accumLoop bit_stream t1 t2 t3 expected current_pos total acc
        = .ok (rle, total', pos') → expected ≤ total') ∧
    (∀ (bit_stream : List Char) (t1 t2 t3 : List (List Char × Int))
      (expected : Int) (rle : List ((Int × Int) × Int)) (total' : Int)
      (pos' : Nat),
      accumLoop bit_stream t1 t2 t3 expected 0 0 [] = .ok (rle, total', pos')
      → total' = expected → ((rleExpand rle).length : Int) = expected) ∧
    (∀ (encoded_string : List Char) (cb : List (Char × List Char))
      (t1 t2 t3 : List (List Char × Int)) (reps : List Int) (ps : Int)
      (w h : Nat) (a b : Int),
      decode_image_data encoded_string cb t1 t2 t3 reps ps w h
        ≠ .error (.exhaustedStreamUnderrun a b)) ∧
    (∀ (encoded_string : List Char) (cb : List (Char × List Char))
      (t1 t2 t3 : List (List Char × Int)) (reps : List Int) (ps : Int)
      (w h : Nat) (n : Nat) (b : Int),
      decode_image_data encoded_string cb t1 t2 t3 reps ps w h
        ≠ .error (.internalRleMismatch n b)) := by
  refine ⟨?_, ?_, ?_, ?_⟩
  · intro bits t1 t2 t3 expected pos total acc rle total' pos' hacc
    exact (accumLoop_ok_inv _ _ _ _ _ _ _ _ _ _ _ hacc).1
  · intro bits t1 t2 t3 expected rle total' pos' hacc htotal
    have hsum' : ((natPixelSum rle : Int)) = total' := by
      simpa [natPixelSum] using (accumLoop_ok_inv _ _ _ _ _ _ _ _ _ _ _ hacc).2
    rw [rleExpand_length, hsum', htotal]
  · intro input cb t1 t2 t3 reps ps w h a b hd
    exact (decode_image_data_error_shape _ _ _ _ _ _ _ _ _ _ hd).1 a b rfl
  · intro input cb t1 t2 t3 reps ps w h n b hd
    exact (decode_image_data_error_shape _ _ _ _ _ _ _ _ _ _ hd).2 n b rfl

/-- Witness for C8: the defensive underrun error never surfaces on the
concrete example input. -/
theorem C8_defensive_checks_unreachable_witness :
    decode_image_data ['B', 'A', 'D', 'E'] char_to_bits_map_example
      rep_color_table_example diff_value_table_example count_table_example
      [10, 100] 256 2 2 ≠ .error (.exhaustedStreamUnderrun 0 4) :=
  C8_defensive_checks_unreachable.2.2.1 ['B', 'A', 'D', 'E']
    char_to_bits_map_example rep_color_table_example
    diff_value_table_example count_table_example [10, 100] 256 2 2 0 4

/-- C9: Termination: every successful scanner call strictly advances the
cursor and keeps it within the stream, so the accumulator loop — modelled
here by its fueled unrolling — finishes within `bit_stream.length + 1`
iteration checks on every input: any fuel exceeding the number of unread
bits already computes the loop's final answer. -/
theorem C9_termination :
    (∀ (s : List Char) (p : Nat) (T : List (List Char × Int))
      (name : String) (v : Int) (np : Nat),
      decode_huffman_stream_item s p T name = .ok (v, np) →
      p < np ∧ np ≤ s.length) ∧
    (∀ (bit_stream : List Char) (t1 t2 t3 : List (List Char × Int))
      (expected : Int) (fuel current_pos : Nat) (total : Int)
      (acc : List ((Int × Int) × Int)),
      bit_stream.length - current_pos < fuel →
      accumLoopF bit_stream t1 t2 t3 expected fuel current_pos total acc
        = some (accumLoop bit_stream t1 t2 t3 expected current_pos total
            acc)) :=
  ⟨fun s p T name v np hok =>
      decode_huffman_stream_item_progress s p T name v np hok,
    fun bits t1 t2 t3 expected fuel pos total acc hfuel =>
      accumLoopF_eq bits t1 t2 t3 expected fuel pos total acc hfuel⟩

/-- Witness for C9: scanner progress at a one-bit stream. -/
theorem C9_termination_witness :
    (0 : Nat) < 1 ∧ 1 ≤ (['0'] : List Char).length :=
  C9_termination.1 ['0'] 0 rep_color_table_example rep_color_item 0 1 rfl

/-- C10: Unstated positive-palette-size precondition: with palette size 0
the reconstruction of any pixel whose representative id is in bounds raises
the division-by-zero error — a failure outside the spec's `ValueError`
taxonomy — and the concrete `"BADE"` scenario run with palette size 0 fails
that way; for a negative palette size no integer lies in
`[0, palette_size)`, so the promised output range is unsatisfiable and the
range guarantee can hold only under `palette_size > 0`. -/
theorem C10_palette_size_precondition :
    (∀ (reps : List Int) (repId diff : Int) (rest : List (Int × Int)),
      0 ≤ repId → repId < (reps.length : Int) →
      reconstructPixels reps 0 ((repId, diff) :: rest)
        = .error .zeroDivisionError) ∧
    decode_image_data ['B', 'A', 'D', 'E'] char_to_bits_map_example
      rep_color_table_example diff_value_table_example count_table_example
      [10, 100] 0 2 2 = .error .zeroDivisionError ∧
    (∀ ps : Int, ps < 0 → ∀ x : Int, ¬ (0 ≤ x ∧ x < ps)) := by
  refine ⟨?_, decode_image_data_eval rfl rfl rfl, ?_⟩
  · intro reps repId diff rest h0 hlt
    unfold reconstructPixels
    rw [if_pos ⟨h0, hlt⟩, if_pos rfl]
  · intro ps hps x hx
    omega

/-- Witness for C10: palette size 0 with one in-bounds pixel raises the
division-by-zero failure. -/
theorem C10_palette_size_precondition_witness :
    reconstructPixels [5] 0 [((0 : Int), (3 : Int))]
      = .error .zeroDivisionError :=
  C10_palette_size_precondition.1 [5] 0 3 [] (by omega) (by decide)
